import Mathlib

/-!
# Verification of `pvanalytics.quality.gaps`

A shallow embedding of the stale-data / interpolation detectors from
`pvanalytics/quality/gaps.py` and proofs of the specification claims.

Pandas/numpy float series are modelled by lists of `PVal`: a value is either a
finite rational (`fin q`, the idealised float), `posInf`, `negInf`, or `nan`.
`nan` doubles as pandas' missing-value marker, exactly as NaN does in a float64
Series.  The pandas operations used by the source (`rolling(...).apply`,
`fillna(False).astype(bool)`, `diff`, `round`, `shift`, elementwise `|`) are
embedded positionally: a Series of length n becomes a list of length n.
-/

namespace Gaps

/-- A float64 value of a pandas Series: a finite rational, an infinity, or NaN
(which is also pandas' missing-data marker). -/
inductive PVal where
  | fin (q : ℚ)
  | posInf
  | negInf
  | nan
deriving DecidableEq, Repr, Inhabited

namespace PVal

/-- NaN test (`numpy.isnan`; also what pandas treats as missing). -/
def isNaN : PVal → Bool
  | nan => true
  | _ => false

/-- Finiteness test (`numpy.isfinite`). -/
def isFinite : PVal → Bool
  | fin _ => true
  | _ => false

/-- Infinity test (`numpy.isinf`). -/
def isInf : PVal → Bool
  | posInf => true
  | negInf => true
  | _ => false

/-- IEEE-754 subtraction on extended values: `inf - inf = nan`, anything with
a `nan` operand is `nan`, otherwise the sign of the surviving infinity wins. -/
def sub : PVal → PVal → PVal
  | nan, _ => nan
  | _, nan => nan
  | fin a, fin b => fin (a - b)
  | fin _, posInf => negInf
  | fin _, negInf => posInf
  | posInf, fin _ => posInf
  | posInf, posInf => nan
  | posInf, negInf => posInf
  | negInf, fin _ => negInf
  | negInf, posInf => negInf
  | negInf, negInf => nan

end PVal

/-- Round half to even (banker's rounding), the rounding rule of
`numpy.round` / `Series.round`, on an exact rational. -/
def roundHalfEven (q : ℚ) : ℤ :=
  let f := ⌊q⌋
  if q - f < 1/2 then f
  else if 1/2 < q - f then f + 1
  else if Even f then f else f + 1

/-- `Series.round(decimals=d)` on a single exact rational value. -/
def roundTo (d : ℤ) (q : ℚ) : ℚ :=
  (roundHalfEven (q * 10 ^ d) : ℚ) / 10 ^ d

/-- `Series.round(decimals=d)` on one value: NaN and infinities round to
themselves. -/
def PVal.round (d : ℤ) : PVal → PVal
  | fin q => fin (roundTo d q)
  | v => v

/-- `Series.diff()`: position 0 becomes NaN, position i (i ≥ 1) becomes
`x[i] - x[i-1]`; an empty series stays empty. -/
def diffList (x : List PVal) : List PVal :=
  match x with
  | [] => []
  | _ => PVal.nan :: List.zipWith PVal.sub x.tail x

/-- The window of `x.rolling(window=w)` whose last element sits at position
`i`: the `w` consecutive values `x[i-w+1 .. i]` (meaningful when `w ≤ i+1`
and `i < x.length`). -/
def rollingWindow (x : List PVal) (w i : ℕ) : List PVal :=
  (x.drop (i + 1 - w)).take w

/-- `x.rolling(window=w).apply(f).fillna(False).astype(bool)` for a boolean
valued `f`: position `i` is the value of `f` on the full window ending at `i`
when that window exists and consists of finite values only, and `False`
otherwise (the NaN produced by `rolling` is turned into `False` by
`fillna(False)`).  Pandas' `Rolling._prep_values` replaces infinities by NaN
before the cython rolling routine (GH #12373), and `roll_apply` counts only
`np.isfinite` values toward `min_periods` (default `min_periods = w`), so the
user function runs exactly on windows of `w` finite values. -/
def rollingApplyBool (x : List PVal) (w : ℕ) (f : List PVal → Bool) : List Bool :=
  (List.range x.length).map (fun i =>
    if w ≤ i + 1 ∧ (rollingWindow x w i).all (fun v => v.isFinite) then
      f (rollingWindow x w i)
    else false)

/-- `numpy.isclose(a, b, rtol, atol)` (with the default `equal_nan=False`):
for two finite values the tolerance formula `|a - b| ≤ atol + rtol*|b|`;
if either value is non-finite, plain equality (so `inf` is close to `inf`
of the same sign, and NaN is close to nothing). -/
def isclose (rtol atol : ℚ) : PVal → PVal → Bool
  | PVal.fin a, PVal.fin b => decide (|a - b| ≤ atol + rtol * |b|)
  | a, b => decide (a = b ∧ a ≠ PVal.nan)

/-- `numpy.allclose(a=x, b=x[0], rtol=rtol, atol=atol)`, i.e. the body of
`_all_close_to_first` in `gaps.py` (the empty case never arises: rolling
windows are non-empty). -/
def all_close_to_first (x : List PVal) (rtol atol : ℚ) : Bool :=
  match x with
  | [] => true
  | x0 :: _ => x.all (fun v => isclose rtol atol v x0)

/-- `gaps.stale_values_diff(x, window, rtol, atol)`: raises ValueError for
`window < 2`, else rolls `_all_close_to_first` over windows of size `window`
and fills the leading NaNs with False. -/
def stale_values_diff (x : List PVal) (window : ℕ) (rtol atol : ℚ) :
    Except String (List Bool) :=
  if window < 2 then
    Except.error ("window set to " ++ toString window ++ ", must be at least 2")
  else
    Except.ok (rollingApplyBool x window (fun ws => all_close_to_first ws rtol atol))

/-- The anonymous lambda inside `stale_values_round`:
`lambda xs: len(xs[xs == 0]) == window - 1`. -/
def countZerosIs (n : ℕ) (ws : List PVal) : Bool :=
  (ws.filter (fun v => decide (v = PVal.fin 0))).length == n

/-- `gaps.stale_values_round(x, decimals, window)`: round, diff, find
endpoints of runs of `window-1` zero differences, then OR the endpoint mask
shifted backward by every offset `0 .. window-1` (`endpoints.shift(-k)`
reads position `i+k`, out-of-range reads are filled with False). -/
def stale_values_round (x : List PVal) (decimals : ℤ) (window : ℕ) : List Bool :=
  let rounded_diff := diffList (x.map (PVal.round decimals))
  let endpoints := rollingApplyBool rounded_diff (window - 1) (countZerosIs (window - 1))
  (List.range x.length).map (fun i =>
    (List.range window).any (fun k => endpoints.getD (i + k) false))

/-- `gaps.interpolation_diff(x, window, rtol, atol)`: raises ValueError for
`window < 3`, else runs `stale_values_diff` on `x.diff()` with `window - 1`. -/
def interpolation_diff (x : List PVal) (window : ℕ) (rtol atol : ℚ) :
    Except String (List Bool) :=
  if window < 3 then
    Except.error ("window set to " ++ toString window ++ ", must be at least 3")
  else
    stale_values_diff (diffList x) (window - 1) rtol atol

/-- A series of plain (finite) real values, the data model of the spec. -/
def finSeries (xs : List ℚ) : List PVal := xs.map PVal.fin

/-- The mathematical first difference of a rational series (length `n-1`):
`mathDiff xs = [x₁-x₀, x₂-x₁, ...]`. -/
def mathDiff (xs : List ℚ) : List ℚ := List.zipWith (· - ·) xs.tail xs

/-! ## Basic lemmas about the embedded pandas operations -/

lemma length_rollingApplyBool (x : List PVal) (w : ℕ) (f : List PVal → Bool) :
    (rollingApplyBool x w f).length = x.length := by
  simp [rollingApplyBool]

lemma rollingApplyBool_getD (x : List PVal) (w : ℕ) (f : List PVal → Bool)
    (i : ℕ) (hi : i < x.length) :
    (rollingApplyBool x w f).getD i false =
      if w ≤ i + 1 ∧ (rollingWindow x w i).all (fun v => v.isFinite) then
        f (rollingWindow x w i)
      else false := by
  have h : i < (rollingApplyBool x w f).length := by
    rwa [length_rollingApplyBool]
  rw [List.getD_eq_getElem _ _ h]
  simp only [rollingApplyBool, List.getElem_map, List.getElem_range]

lemma getD_eq_false_of_ge (l : List Bool) (i : ℕ) (hi : l.length ≤ i) :
    l.getD i false = false := by
  simp [List.getD_eq_getElem?_getD, List.getElem?_eq_none hi]

lemma rollingWindow_length (x : List PVal) (w i : ℕ) (hw : w ≤ i + 1)
    (hi : i < x.length) :
    (rollingWindow x w i).length = w := by
  simp only [rollingWindow, List.length_take, List.length_drop]
  omega

lemma rollingWindow_getD (x : List PVal) (w i k : ℕ) (d : PVal) (hw : w ≤ i + 1)
    (hi : i < x.length) (hk : k < w) :
    (rollingWindow x w i).getD k d = x.getD (i + 1 - w + k) d := by
  have h1 : k < (rollingWindow x w i).length := by
    rwa [rollingWindow_length x w i hw hi]
  have h2 : i + 1 - w + k < x.length := by omega
  rw [List.getD_eq_getElem _ _ h1, List.getD_eq_getElem _ _ h2]
  simp only [rollingWindow, List.getElem_take, List.getElem_drop]

lemma rollingWindow_all (x : List PVal) (w i : ℕ) (p : PVal → Bool) (hw : w ≤ i + 1)
    (hi : i < x.length) :
    (rollingWindow x w i).all p = true ↔
      ∀ k, k < w → p (x.getD (i + 1 - w + k) PVal.nan) = true := by
  rw [List.all_eq_true]
  constructor
  · intro h k hk
    rw [← rollingWindow_getD x w i k PVal.nan hw hi hk]
    have hlen : k < (rollingWindow x w i).length := by
      rwa [rollingWindow_length x w i hw hi]
    rw [List.getD_eq_getElem _ _ hlen]
    exact h _ (List.getElem_mem hlen)
  · intro h v hv
    rcases List.mem_iff_getElem.mp hv with ⟨k, hkl, rfl⟩
    have hk : k < w := by
      rwa [rollingWindow_length x w i hw hi] at hkl
    have hp := h k hk
    rwa [← rollingWindow_getD x w i k PVal.nan hw hi hk,
      List.getD_eq_getElem _ _ hkl] at hp

lemma rollingWindow_map (g : PVal → PVal) (x : List PVal) (w i : ℕ) :
    rollingWindow (x.map g) w i = (rollingWindow x w i).map g := by
  simp only [rollingWindow, List.map_take, List.map_drop]

lemma length_finSeries (xs : List ℚ) : (finSeries xs).length = xs.length := by
  simp [finSeries]

lemma finSeries_getD (xs : List ℚ) (i : ℕ) (hi : i < xs.length) :
    (finSeries xs).getD i PVal.nan = PVal.fin (xs.getD i 0) := by
  have h : i < (finSeries xs).length := by rwa [length_finSeries]
  rw [List.getD_eq_getElem _ _ h, List.getD_eq_getElem _ _ hi]
  simp only [finSeries, List.getElem_map]

lemma isclose_fin (rtol atol a b : ℚ) :
    isclose rtol atol (PVal.fin a) (PVal.fin b) =
      decide (|a - b| ≤ atol + rtol * |b|) := rfl

/-- C4: on every non-empty window of numeric values, `_all_close_to_first`
returns `True` iff every value `v` of the window satisfies
`|v - w[0]| ≤ atol + rtol*|w[0]|`, the window's first element being the fixed
reference of every comparison.  (It is a plain Lean function of
`(window, rtol, atol)`, hence pure; the claim's non-negativity restriction on
the tolerances is not even needed.) -/
theorem all_close_to_first_spec (ws : List ℚ) (h : ws ≠ []) (rtol atol : ℚ) :
    (all_close_to_first (finSeries ws) rtol atol = true ↔
      ∀ v ∈ ws, |v - ws.headI| ≤ atol + rtol * |ws.headI|) := by
  cases ws with
  | nil => exact absurd rfl h
  | cons a t =>
    show (PVal.fin a :: t.map PVal.fin).all
        (fun v => isclose rtol atol v (PVal.fin a)) = true ↔ _
    rw [List.all_eq_true]
    constructor
    · intro hall v hv
      rcases List.mem_cons.mp hv with hv | hv
      · subst hv
        have := hall (PVal.fin v) (List.mem_cons_self _ _)
        simpa [isclose_fin] using this
      · have := hall (PVal.fin v) (List.mem_cons_of_mem _ (List.mem_map_of_mem _ hv))
        simpa [isclose_fin] using this
    · intro hall v hv
      rcases List.mem_cons.mp hv with hv | hv
      · subst hv
        simpa [isclose_fin] using hall a (List.mem_cons_self _ _)
      · rcases List.mem_map.mp hv with ⟨u, hu, rfl⟩
        simpa [isclose_fin] using hall u (List.mem_cons_of_mem _ hu)

lemma rollingWindow_finSeries_finite (xs : List ℚ) (w i : ℕ) (hwi : w ≤ i + 1)
    (hi : i < xs.length) :
    (rollingWindow (finSeries xs) w i).all (fun v => v.isFinite) = true := by
  have hi' : i < (finSeries xs).length := by rwa [length_finSeries]
  rw [rollingWindow_all _ _ _ _ hwi hi']
  intro k hk
  rw [finSeries_getD xs _ (by omega)]
  rfl

/-- `_all_close_to_first` on the rolling window of a series of plain reals:
the tolerance test of every window member against the window's first
element `xs[i+1-w]`. -/
lemma all_close_to_first_window (xs : List ℚ) (w i : ℕ) (hw : 1 ≤ w)
    (hwi : w ≤ i + 1) (hi : i < xs.length) (rtol atol : ℚ) :
    (all_close_to_first (rollingWindow (finSeries xs) w i) rtol atol = true ↔
      ∀ k, k < w →
        |xs.getD (i + 1 - w + k) 0 - xs.getD (i + 1 - w) 0| ≤
          atol + rtol * |xs.getD (i + 1 - w) 0|) := by
  have hi' : i < (finSeries xs).length := by rwa [length_finSeries]
  have hlen : (rollingWindow (finSeries xs) w i).length = w :=
    rollingWindow_length _ w i hwi hi'
  have hne : rollingWindow (finSeries xs) w i ≠ [] := by
    intro hnil
    rw [hnil] at hlen
    simp at hlen
    omega
  obtain ⟨a, t, hat⟩ := List.exists_cons_of_ne_nil hne
  have ha : a = PVal.fin (xs.getD (i + 1 - w) 0) := by
    have h0 : (rollingWindow (finSeries xs) w i).getD 0 PVal.nan =
        (finSeries xs).getD (i + 1 - w + 0) PVal.nan :=
      rollingWindow_getD _ w i 0 PVal.nan hwi hi' (by omega)
    rw [Nat.add_zero] at h0
    rw [finSeries_getD xs _ (show i + 1 - w < xs.length by omega)] at h0
    rw [hat, List.getD_cons_zero] at h0
    exact h0
  have hunfold : all_close_to_first (rollingWindow (finSeries xs) w i) rtol atol =
      (rollingWindow (finSeries xs) w i).all (fun v => isclose rtol atol v a) := by
    rw [hat]
    rfl
  rw [hunfold, rollingWindow_all _ w i _ hwi hi']
  constructor
  · intro h k hk
    have := h k hk
    rw [finSeries_getD xs _ (by omega), ha, isclose_fin] at this
    exact of_decide_eq_true this
  · intro h k hk
    rw [finSeries_getD xs _ (by omega), ha, isclose_fin]
    exact decide_eq_true (h k hk)

/-- C1: for every series `x` and every `window ≥ 2`, `stale_values_diff`
returns a boolean mask in which position `i` is `True` iff `i ≥ window-1`
and every value of the window `x[i-window+1 .. i]` is within
`atol + rtol*|anchor|` of the anchor `x[i-window+1]`; every position
`i < window-1` is `False`, and no error is raised. -/
theorem stale_values_diff_window_spec (xs : List ℚ) (w : ℕ) (hw : 2 ≤ w)
    (rtol atol : ℚ) :
    ∃ m, stale_values_diff (finSeries xs) w rtol atol = Except.ok m ∧
      m.length = xs.length ∧
      ∀ i, i < xs.length →
        (m.getD i false = true ↔
          (w - 1 ≤ i ∧ ∀ k, k < w →
            |xs.getD (i + 1 - w + k) 0 - xs.getD (i + 1 - w) 0| ≤
              atol + rtol * |xs.getD (i + 1 - w) 0|)) := by
  have hnot : ¬ w < 2 := Nat.not_lt.mpr hw
  refine ⟨rollingApplyBool (finSeries xs) w
      (fun ws => all_close_to_first ws rtol atol),
    by simp [stale_values_diff, hnot], ?_, ?_⟩
  · rw [length_rollingApplyBool, length_finSeries]
  · intro i hi
    have hi' : i < (finSeries xs).length := by rwa [length_finSeries]
    rw [rollingApplyBool_getD _ _ _ _ hi']
    by_cases hcase : w ≤ i + 1
    · rw [if_pos ⟨hcase, rollingWindow_finSeries_finite xs w i hcase hi⟩,
        all_close_to_first_window xs w i (by omega) hcase hi rtol atol]
      constructor
      · intro hall
        exact ⟨by omega, hall⟩
      · rintro ⟨-, hall⟩
        exact hall
    · rw [if_neg (by tauto)]
      constructor
      · intro hfalse
        cases hfalse
      · rintro ⟨h1, -⟩
        exact absurd h1 (by omega)

/-- Witness for C1 at `x = [1, 1/2]`, `window = 2`, `rtol = 0`, `atol = 1`. -/
theorem stale_values_diff_window_spec_witness :
    ∃ m, stale_values_diff (finSeries [1, 1/2]) 2 0 1 = Except.ok m ∧
      m.length = ([1, 1/2] : List ℚ).length ∧
      ∀ i, i < ([1, 1/2] : List ℚ).length →
        (m.getD i false = true ↔
          (2 - 1 ≤ i ∧ ∀ k, k < 2 →
            |([1, 1/2] : List ℚ).getD (i + 1 - 2 + k) 0 -
                ([1, 1/2] : List ℚ).getD (i + 1 - 2) 0| ≤
              1 + 0 * |([1, 1/2] : List ℚ).getD (i + 1 - 2) 0|)) :=
  stale_values_diff_window_spec [1, 1/2] 2 (by decide) 0 1

/-- Witness for C4 at the window `[2, 1]` with `rtol = 0`, `atol = 2`. -/
theorem all_close_to_first_spec_witness :
    (all_close_to_first (finSeries [2, 1]) 0 2 = true ↔
      ∀ v ∈ ([2, 1] : List ℚ), |v - ([2, 1] : List ℚ).headI| ≤
        2 + 0 * |([2, 1] : List ℚ).headI|) :=
  all_close_to_first_spec [2, 1] (by decide) 0 2

lemma stale_values_diff_ok (x : List PVal) (w : ℕ) (hw : 2 ≤ w) (rtol atol : ℚ) :
    stale_values_diff x w rtol atol =
      Except.ok (rollingApplyBool x w (fun ws => all_close_to_first ws rtol atol)) := by
  simp [stale_values_diff, Nat.not_lt.mpr hw]

lemma length_diffList (x : List PVal) : (diffList x).length = x.length := by
  cases x with
  | nil => rfl
  | cons a t =>
    simp only [diffList, List.length_cons, List.length_zipWith, List.tail_cons]
    omega

/-- C5: for every input series, `stale_values_diff` with `window < 2` and
`interpolation_diff` with `window < 3` fail with the ValueError whose message
states the offending value and the required minimum; no mask is produced.
(In the embedding the check is the first branch of each function, before any
use of the data, i.e. the error is synchronous.) -/
theorem invalid_window_spec (x : List PVal) (rtol atol : ℚ) (v u : ℕ)
    (hv : v < 2) (hu : u < 3) :
    stale_values_diff x v rtol atol =
      Except.error ("window set to " ++ toString v ++ ", must be at least 2") ∧
    interpolation_diff x u rtol atol =
      Except.error ("window set to " ++ toString u ++ ", must be at least 3") := by
  constructor
  · simp [stale_values_diff, hv]
  · simp [interpolation_diff, hu]

/-- Witness for C5: a non-empty series with `window = 1` resp. `window = 2`. -/
theorem invalid_window_spec_witness :
    stale_values_diff [PVal.fin 5] 1 0 0 =
      Except.error ("window set to " ++ toString (1 : ℕ) ++ ", must be at least 2") ∧
    interpolation_diff [PVal.fin 5] 2 0 0 =
      Except.error ("window set to " ++ toString (2 : ℕ) ++ ", must be at least 3") :=
  invalid_window_spec [PVal.fin 5] 0 0 1 2 (by decide) (by decide)

/-- C7: each of the three detectors returns a mask of the same length as its
input series (the opaque pandas index is positional in this embedding, so
same length at the same positions is exactly index preservation). -/
theorem mask_length_spec (x : List PVal) (w2 w3 wr : ℕ) (d : ℤ) (rtol atol : ℚ)
    (h2 : 2 ≤ w2) (h3 : 3 ≤ w3) (hr : 2 ≤ wr) :
    (∀ m, stale_values_diff x w2 rtol atol = Except.ok m → m.length = x.length) ∧
    (stale_values_round x d wr).length = x.length ∧
    (∀ m, interpolation_diff x w3 rtol atol = Except.ok m → m.length = x.length) := by
  refine ⟨?_, ?_, ?_⟩
  · intro m hm
    rw [stale_values_diff_ok x w2 h2] at hm
    cases hm
    exact length_rollingApplyBool x w2 _
  · simp [stale_values_round]
  · intro m hm
    have hu : ¬ w3 < 3 := Nat.not_lt.mpr h3
    rw [interpolation_diff, if_neg hu,
      stale_values_diff_ok (diffList x) (w3 - 1) (by omega)] at hm
    cases hm
    rw [length_rollingApplyBool, length_diffList]

/-- Witness for C7 at `x = [nan, fin 0]`, `w2 = 2`, `w3 = 3`, `wr = 2`. -/
theorem mask_length_spec_witness :
    (∀ m, stale_values_diff [PVal.nan, PVal.fin 0] 2 0 0 = Except.ok m →
      m.length = [PVal.nan, PVal.fin 0].length) ∧
    (stale_values_round [PVal.nan, PVal.fin 0] 3 2).length =
      [PVal.nan, PVal.fin 0].length ∧
    (∀ m, interpolation_diff [PVal.nan, PVal.fin 0] 3 0 0 = Except.ok m →
      m.length = [PVal.nan, PVal.fin 0].length) :=
  mask_length_spec [PVal.nan, PVal.fin 0] 2 3 2 3 0 0 (by decide) (by decide)
    (by decide)

/-- C8: enlarging either tolerance can only add flags: with `rtol ≤ rtol'` and
`atol ≤ atol'`, every position flagged by `stale_values_diff x w rtol atol` is
also flagged by `stale_values_diff x w rtol' atol'`. -/
theorem stale_values_diff_monotone (xs : List ℚ) (w : ℕ) (hw : 2 ≤ w)
    (rtol atol rtol' atol' : ℚ) (hrle : rtol ≤ rtol') (hale : atol ≤ atol') :
    ∀ m m', stale_values_diff (finSeries xs) w rtol atol = Except.ok m →
      stale_values_diff (finSeries xs) w rtol' atol' = Except.ok m' →
      ∀ i, m.getD i false = true → m'.getD i false = true := by
  intro m m' hm hm' i hflag
  rw [stale_values_diff_ok _ w hw] at hm hm'
  cases hm
  cases hm'
  by_cases hi : i < xs.length
  · have hi' : i < (finSeries xs).length := by rwa [length_finSeries]
    rw [rollingApplyBool_getD _ _ _ _ hi'] at hflag ⊢
    by_cases hcond : w ≤ i + 1 ∧
        (rollingWindow (finSeries xs) w i).all (fun v => v.isFinite) = true
    · rw [if_pos hcond] at hflag ⊢
      rw [all_close_to_first_window xs w i (by omega) hcond.1 hi] at hflag ⊢
      intro k hk
      refine le_trans (hflag k hk) (add_le_add hale ?_)
      exact mul_le_mul_of_nonneg_right hrle (abs_nonneg _)
    · rw [if_neg hcond] at hflag
      cases hflag
  · have hlen : (rollingApplyBool (finSeries xs) w
        (fun ws => all_close_to_first ws rtol atol)).length ≤ i := by
      rw [length_rollingApplyBool, length_finSeries]
      omega
    rw [getD_eq_false_of_ge _ _ hlen] at hflag
    cases hflag

lemma ones_mask_flag :
    (rollingApplyBool (finSeries [1, 1]) 2
      (fun ws => all_close_to_first ws 0 0)).getD 1 false = true := by
  have hwin : rollingWindow (finSeries [1, 1]) 2 1 = [PVal.fin 1, PVal.fin 1] :=
    rfl
  rw [rollingApplyBool_getD _ _ _ 1 (by simp [finSeries])]
  rw [if_pos]
  · rw [hwin]
    show (isclose 0 0 (PVal.fin 1) (PVal.fin 1) &&
      (isclose 0 0 (PVal.fin 1) (PVal.fin 1) && true)) = true
    rw [isclose_fin]
    simp
  · refine ⟨by omega, ?_⟩
    rw [hwin]
    rfl

/-- Witness for C8 at `x = [1, 1]`, `w = 2`, tolerances `(0,0) ≤ (0,1)`,
position `i = 1`. -/
theorem stale_values_diff_monotone_witness :
    stale_values_diff (finSeries [1, 1]) 2 0 0 =
      Except.ok (rollingApplyBool (finSeries [1, 1]) 2
        (fun ws => all_close_to_first ws 0 0)) ∧
    stale_values_diff (finSeries [1, 1]) 2 0 1 =
      Except.ok (rollingApplyBool (finSeries [1, 1]) 2
        (fun ws => all_close_to_first ws 0 1)) ∧
    (rollingApplyBool (finSeries [1, 1]) 2
      (fun ws => all_close_to_first ws 0 1)).getD 1 false = true :=
  ⟨stale_values_diff_ok (finSeries [1, 1]) 2 (by decide) 0 0,
   stale_values_diff_ok (finSeries [1, 1]) 2 (by decide) 0 1,
   stale_values_diff_monotone [1, 1] 2 (by decide) 0 0 0 1 le_rfl zero_le_one
     _ _ (stale_values_diff_ok (finSeries [1, 1]) 2 (by decide) 0 0)
     (stale_values_diff_ok (finSeries [1, 1]) 2 (by decide) 0 1) 1
     ones_mask_flag⟩

/-- C10: on the empty series, each detector returns the empty mask and no
error is raised (`stale_values_round` taken at its defaults
`decimals = 3`, `window = 4`). -/
theorem empty_series_spec (w2 w3 : ℕ) (rtol atol : ℚ) (h2 : 2 ≤ w2)
    (h3 : 3 ≤ w3) :
    stale_values_diff [] w2 rtol atol = Except.ok [] ∧
    stale_values_round [] 3 4 = [] ∧
    interpolation_diff [] w3 rtol atol = Except.ok [] := by
  refine ⟨?_, by rfl, ?_⟩
  · rw [stale_values_diff_ok [] w2 h2]
    rfl
  · rw [interpolation_diff, if_neg (Nat.not_lt.mpr h3)]
    show stale_values_diff [] (w3 - 1) rtol atol = Except.ok []
    rw [stale_values_diff_ok [] (w3 - 1) (by omega)]
    rfl

/-- Witness for C10 at `w2 = 2`, `w3 = 3`, zero tolerances. -/
theorem empty_series_spec_witness :
    stale_values_diff [] 2 0 0 = Except.ok [] ∧
    stale_values_round [] 3 4 = [] ∧
    interpolation_diff [] 3 0 0 = Except.ok [] :=
  empty_series_spec 2 3 0 0 (by decide) (by decide)

/-! ## C3: the interpolation detector refines the diff detector -/

lemma zipWith_sub_finSeries (u v : List ℚ) :
    List.zipWith PVal.sub (finSeries u) (finSeries v) =
      finSeries (List.zipWith (· - ·) u v) := by
  induction u generalizing v with
  | nil => rfl
  | cons a u ih =>
    cases v with
    | nil => rfl
    | cons b v =>
      show PVal.fin (a - b) :: List.zipWith PVal.sub (finSeries u) (finSeries v) =
        PVal.fin (a - b) :: finSeries (List.zipWith (· - ·) u v)
      rw [ih]

lemma diffList_finSeries (a : ℚ) (t : List ℚ) :
    diffList (finSeries (a :: t)) = PVal.nan :: finSeries (mathDiff (a :: t)) := by
  show PVal.nan :: List.zipWith PVal.sub (finSeries t) (finSeries (a :: t)) = _
  rw [zipWith_sub_finSeries]
  rfl

/-- Prepending a NaN to a series shifts the rolling mask by one position and
puts `False` in front: the new position 0 lacks a full window or contains the
NaN, and every later window containing the NaN is suppressed by
`min_periods`. -/
lemma rollingApplyBool_nan_cons (ys : List PVal) (w : ℕ) (f : List PVal → Bool)
    (hw : 1 ≤ w) :
    rollingApplyBool (PVal.nan :: ys) w f = false :: rollingApplyBool ys w f := by
  apply List.ext_getElem
  · simp [length_rollingApplyBool]
  intro n h1 h2
  rw [← List.getD_eq_getElem _ false h1, ← List.getD_eq_getElem _ false h2]
  have hlen : n < ys.length + 1 := by
    rwa [length_rollingApplyBool, List.length_cons] at h1
  rw [rollingApplyBool_getD _ _ _ _ (by simpa using hlen)]
  cases n with
  | zero =>
    rw [List.getD_cons_zero]
    rcases Nat.lt_or_ge 1 w with hgt | hone
    · rw [if_neg]
      rintro ⟨hc, -⟩
      omega
    · have hw1 : w = 1 := by omega
      subst hw1
      rw [if_neg]
      rintro ⟨-, hc⟩
      have : rollingWindow (PVal.nan :: ys) 1 0 = [PVal.nan] := by
        simp [rollingWindow]
      rw [this] at hc
      simp [PVal.isFinite] at hc
  | succ m =>
    have hm : m < ys.length := by omega
    rw [List.getD_cons_succ, rollingApplyBool_getD _ _ _ _ hm]
    rcases Nat.lt_or_ge (m + 1) w with hgt | hge
    · -- window of the extended series would need w ≥ m+2 values
      rcases Nat.lt_or_ge (m + 2) w with hgt2 | heq
      · rw [if_neg (by omega), if_neg (by omega)]
      · -- w = m + 2: the window starts at the prepended NaN
        have hw2 : w = m + 2 := by omega
        subst hw2
        rw [if_neg, if_neg (by omega)]
        rintro ⟨-, hc⟩
        rw [rollingWindow_all _ _ _ _ (by omega) (by simp; omega)] at hc
        have h0 := hc 0 (by omega)
        have hz : m + 1 + 1 - (m + 2) + 0 = 0 := by omega
        rw [hz] at h0
        simp [PVal.isFinite] at h0
    · -- w ≤ m+1: the two windows coincide
      have hwin : rollingWindow (PVal.nan :: ys) w (m + 1) = rollingWindow ys w m := by
        unfold rollingWindow
        have hsub : m + 1 + 1 - w = (m + 1 - w) + 1 := by omega
        rw [hsub, List.drop_succ_cons]
      rw [hwin]
      refine if_congr ?_ rfl rfl
      constructor
      · rintro ⟨-, hc2⟩
        exact ⟨by omega, hc2⟩
      · rintro ⟨-, hc2⟩
        exact ⟨by omega, hc2⟩

/-- C3: for every non-empty series `x` and `window ≥ 3`, `interpolation_diff`
is `stale_values_diff` run on the first-difference series with `window - 1`
and the same tolerances, re-aligned to the original index by putting `False`
at the leading position (which has no defined difference). -/
theorem interpolation_diff_refines (xs : List ℚ) (h : xs ≠ []) (w : ℕ)
    (hw : 3 ≤ w) (rtol atol : ℚ) :
    ∃ m, stale_values_diff (finSeries (mathDiff xs)) (w - 1) rtol atol =
        Except.ok m ∧
      interpolation_diff (finSeries xs) w rtol atol = Except.ok (false :: m) := by
  obtain ⟨a, t, rfl⟩ := List.exists_cons_of_ne_nil h
  refine ⟨rollingApplyBool (finSeries (mathDiff (a :: t))) (w - 1)
      (fun ws => all_close_to_first ws rtol atol),
    stale_values_diff_ok _ _ (by omega) _ _, ?_⟩
  rw [interpolation_diff, if_neg (Nat.not_lt.mpr hw)]
  show stale_values_diff (diffList (finSeries (a :: t))) (w - 1) rtol atol = _
  rw [diffList_finSeries a t, stale_values_diff_ok _ _ (by omega),
    rollingApplyBool_nan_cons _ _ _ (by omega)]

/-- Witness for C3 at `x = [0, 1, 2]`, `window = 3`, `rtol = atol = 0`. -/
theorem interpolation_diff_refines_witness :
    ∃ m, stale_values_diff (finSeries (mathDiff [0, 1, 2])) (3 - 1) 0 0 =
        Except.ok m ∧
      interpolation_diff (finSeries [0, 1, 2]) 3 0 0 = Except.ok (false :: m) :=
  interpolation_diff_refines [0, 1, 2] (by decide) 3 (by decide) 0 0

/-! ## C9: `stale_values_round` only sees the rounded values -/

lemma roundHalfEven_intCast (m : ℤ) : roundHalfEven (m : ℚ) = m := by
  unfold roundHalfEven
  rw [Int.floor_intCast]
  norm_num

lemma roundTo_idem (d : ℤ) (q : ℚ) : roundTo d (roundTo d q) = roundTo d q := by
  unfold roundTo
  rw [div_mul_cancel₀ _ (zpow_ne_zero d (by norm_num : (10 : ℚ) ≠ 0)),
    roundHalfEven_intCast]

lemma PVal.round_idem (d : ℤ) (v : PVal) :
    PVal.round d (PVal.round d v) = PVal.round d v := by
  cases v with
  | fin q =>
    show PVal.fin (roundTo d (roundTo d q)) = PVal.fin (roundTo d q)
    rw [roundTo_idem]
  | posInf => rfl
  | negInf => rfl
  | nan => rfl

lemma map_round_idem (d : ℤ) (x : List PVal) :
    (x.map (PVal.round d)).map (PVal.round d) = x.map (PVal.round d) := by
  rw [List.map_map]
  exact List.map_congr_left (fun v _ => PVal.round_idem d v)

/-- C9: `stale_values_round` depends on the series only through its values
rounded to `decimals` places: running it on the pre-rounded series gives the
same mask, because decimal rounding is idempotent. -/
theorem stale_values_round_pre_rounded (x : List PVal) (d : ℤ) (w : ℕ)
    (hw : 2 ≤ w) :
    stale_values_round (x.map (PVal.round d)) d w = stale_values_round x d w := by
  have h1 := map_round_idem d x
  have h2 : (x.map (PVal.round d)).length = x.length := List.length_map x _
  simp only [stale_values_round, h1, h2]

/-- Witness for C9 at `x = [fin (1/2), nan]`, `decimals = 0`, `window = 2`. -/
theorem stale_values_round_pre_rounded_witness :
    stale_values_round ([PVal.fin (1/2), PVal.nan].map (PVal.round 0)) 0 2 =
      stale_values_round [PVal.fin (1/2), PVal.nan] 0 2 :=
  stale_values_round_pre_rounded [PVal.fin (1/2), PVal.nan] 0 2 (by decide)

/-! ## C6: non-finite reference values -/

/-- C6: a window whose reference (first) element is non-finite is never
flagged: pandas' rolling machinery converts infinities to NaN and counts only
finite values toward `min_periods`, so `_all_close_to_first` is never applied
to such a window and `fillna(False)` leaves the endpoint `False`. -/
theorem stale_values_diff_nonfinite_ref (x : List PVal) (w i : ℕ)
    (rtol atol : ℚ) (hw : 2 ≤ w) (hi : i < x.length) (hwi : w ≤ i + 1)
    (href : (rollingWindow x w i).headI.isFinite = false) :
    ∀ m, stale_values_diff x w rtol atol = Except.ok m →
      m.getD i false = false := by
  intro m hm
  rw [stale_values_diff_ok x w hw] at hm
  cases hm
  rw [rollingApplyBool_getD _ _ _ _ hi]
  rw [if_neg]
  rintro ⟨-, hfin⟩
  have hlen : (rollingWindow x w i).length = w := rollingWindow_length x w i hwi hi
  have hne : rollingWindow x w i ≠ [] := by
    intro hnil
    rw [hnil] at hlen
    simp at hlen
    omega
  obtain ⟨a, t, hat⟩ := List.exists_cons_of_ne_nil hne
  have hheadI : (rollingWindow x w i).headI = a := by
    rw [hat]
    rfl
  rw [hheadI] at href
  have hamem : a ∈ rollingWindow x w i := by
    rw [hat]
    exact List.mem_cons_self _ _
  rw [List.all_eq_true] at hfin
  have hfa := hfin a hamem
  rw [href] at hfa
  cases hfa

/-- Witness for C6 at `x = [posInf, posInf]`, `window = 2`, `i = 1` (the
reference of the window ending at 1 is `+inf`; the flag there is `False`). -/
theorem stale_values_diff_nonfinite_ref_witness :
    stale_values_diff [PVal.posInf, PVal.posInf] 2 0 0 =
      Except.ok [false, false] ∧
      ([false, false] : List Bool).getD 1 false = false :=
  ⟨rfl,
    stale_values_diff_nonfinite_ref [PVal.posInf, PVal.posInf] 2 1 0 0
      (by decide) (by decide) (by decide) rfl [false, false] rfl⟩

/-! ## C2: run-spreading semantics of `stale_values_round` -/

lemma length_filter_eq_iff {α : Type} (p : α → Bool) (l : List α) :
    (l.filter p).length = l.length ↔ ∀ a ∈ l, p a = true := by
  induction l with
  | nil => simp
  | cons a t ih =>
    by_cases hp : p a = true
    · simp [List.filter_cons, hp, ih]
    · have hle := List.length_filter_le p t
      simp only [List.filter_cons, if_neg hp, List.length_cons]
      constructor
      · intro h
        omega
      · intro h
        exact absurd (h a (List.mem_cons_self _ _)) hp

lemma chain_eq_const (r : ℕ → ℚ) (s e : ℕ) :
    (∀ j, s < j → j ≤ e → r j = r (j - 1)) ↔
      (∀ j, s ≤ j → j ≤ e → r j = r s) := by
  constructor
  · intro h j hsj hje
    induction j, hsj using Nat.le_induction with
    | base => rfl
    | succ j hsj ih =>
      have h1 := h (j + 1) (by omega) hje
      have hz : j + 1 - 1 = j := by omega
      rw [hz] at h1
      rw [h1]
      exact ih (by omega)
  · intro h j hsj hje
    have h1 := h j (by omega) hje
    have h2 := h (j - 1) (by omega) (by omega)
    rw [h1, h2]

lemma mathDiff_getD (a : ℚ) (t : List ℚ) (j : ℕ) (hj : j < t.length) :
    (mathDiff (a :: t)).getD j 0 =
      (a :: t).getD (j + 1) 0 - (a :: t).getD j 0 := by
  have hlen : j < (mathDiff (a :: t)).length := by
    simp only [mathDiff, List.length_zipWith, List.tail_cons, List.length_cons]
    omega
  rw [List.getD_eq_getElem _ _ hlen,
    List.getD_eq_getElem _ _ (show j + 1 < (a :: t).length by simp; omega),
    List.getD_eq_getElem _ _ (show j < (a :: t).length by simp; omega)]
  unfold mathDiff
  simp only [List.tail_cons]
  rw [List.getElem_zipWith, List.getElem_cons_succ]

lemma diffList_finSeries_getD_zero (a : ℚ) (t : List ℚ) :
    (diffList (finSeries (a :: t))).getD 0 PVal.nan = PVal.nan := by
  rw [diffList_finSeries a t]
  rfl

lemma diffList_finSeries_getD (ys : List ℚ) (j : ℕ) (hj : j + 1 < ys.length) :
    (diffList (finSeries ys)).getD (j + 1) PVal.nan =
      PVal.fin (ys.getD (j + 1) 0 - ys.getD j 0) := by
  cases ys with
  | nil => simp at hj
  | cons a t =>
    rw [diffList_finSeries a t, List.getD_cons_succ]
    have hjt : j < t.length := by
      simp only [List.length_cons] at hj
      omega
    have hjlen : j < (mathDiff (a :: t)).length := by
      simp only [mathDiff, List.length_zipWith, List.tail_cons, List.length_cons]
      omega
    rw [finSeries_getD _ _ hjlen, mathDiff_getD a t j hjt]

lemma map_round_finSeries (d : ℤ) (xs : List ℚ) :
    (finSeries xs).map (PVal.round d) = finSeries (xs.map (roundTo d)) := by
  unfold finSeries
  rw [List.map_map, List.map_map]
  rfl

lemma map_roundTo_getD (xs : List ℚ) (d : ℤ) (j : ℕ) (hj : j < xs.length) :
    (xs.map (roundTo d)).getD j 0 = roundTo d (xs.getD j 0) := by
  rw [List.getD_eq_getElem _ _ (by simpa using hj), List.getD_eq_getElem _ _ hj,
    List.getElem_map]

/-- The `endpoints` series of `stale_values_round`: position `p` is `True`
iff a full window of `window` values ending at `p` exists and the rounded
values over that window are all equal. -/
lemma endpoints_getD (xs : List ℚ) (d : ℤ) (w : ℕ) (hw : 2 ≤ w) (p : ℕ)
    (hp : p < xs.length) :
    ((rollingApplyBool (diffList (finSeries (xs.map (roundTo d)))) (w - 1)
        (countZerosIs (w - 1))).getD p false = true ↔
      (w ≤ p + 1 ∧ ∀ j, p + 1 - w ≤ j → j ≤ p →
        roundTo d (xs.getD j 0) = roundTo d (xs.getD (p + 1 - w) 0))) := by
  have hlenr : (xs.map (roundTo d)).length = xs.length := List.length_map _ _
  have hlend : (diffList (finSeries (xs.map (roundTo d)))).length = xs.length := by
    rw [length_diffList, length_finSeries, hlenr]
  have hp' : p < (diffList (finSeries (xs.map (roundTo d)))).length := by omega
  rw [rollingApplyBool_getD _ _ _ _ hp']
  by_cases hA : w ≤ p + 1
  · have hc1 : w - 1 ≤ p + 1 := by omega
    have hnonan : (rollingWindow (diffList (finSeries (xs.map (roundTo d))))
        (w - 1) p).all (fun v => v.isFinite) = true := by
      rw [rollingWindow_all _ _ _ _ hc1 hp']
      intro k hk
      have hidx : p + 1 - (w - 1) + k = (p + 1 - w + k) + 1 := by omega
      rw [hidx, diffList_finSeries_getD _ _ (by rw [hlenr]; omega)]
      rfl
    rw [if_pos ⟨hc1, hnonan⟩]
    have hwin : (rollingWindow (diffList (finSeries (xs.map (roundTo d))))
        (w - 1) p).length = w - 1 :=
      rollingWindow_length _ _ _ hc1 hp'
    have step1 : countZerosIs (w - 1)
        (rollingWindow (diffList (finSeries (xs.map (roundTo d)))) (w - 1) p) =
          true ↔
        ∀ k, k < w - 1 →
          (diffList (finSeries (xs.map (roundTo d)))).getD
            (p + 1 - (w - 1) + k) PVal.nan = PVal.fin 0 := by
      unfold countZerosIs
      rw [beq_iff_eq]
      constructor
      · intro h k hk
        have hall := (length_filter_eq_iff (fun v => decide (v = PVal.fin 0)) _).mp
          (h.trans hwin.symm)
        have hmem : (rollingWindow (diffList (finSeries (xs.map (roundTo d))))
            (w - 1) p).getD k PVal.nan ∈
            rollingWindow (diffList (finSeries (xs.map (roundTo d)))) (w - 1) p := by
          have hkl : k < (rollingWindow (diffList (finSeries (xs.map (roundTo d))))
              (w - 1) p).length := by omega
          rw [List.getD_eq_getElem _ _ hkl]
          exact List.getElem_mem hkl
        have hd := hall _ hmem
        rw [decide_eq_true_iff] at hd
        rw [← rollingWindow_getD _ _ _ _ PVal.nan hc1 hp' (by omega)]
        exact hd
      · intro h
        refine ((length_filter_eq_iff _ _).mpr ?_).trans hwin
        intro v hv
        rcases List.mem_iff_getElem.mp hv with ⟨k, hkl, rfl⟩
        have hk : k < w - 1 := by rwa [hwin] at hkl
        have hkk := h k hk
        rw [← rollingWindow_getD _ _ _ _ PVal.nan hc1 hp' (by omega),
          List.getD_eq_getElem _ _ hkl] at hkk
        rw [decide_eq_true_iff]
        exact hkk
    rw [step1]
    have step2 : (∀ k, k < w - 1 →
        (diffList (finSeries (xs.map (roundTo d)))).getD
          (p + 1 - (w - 1) + k) PVal.nan = PVal.fin 0) ↔
        (∀ j, p + 1 - w < j → j ≤ p →
          (xs.map (roundTo d)).getD j 0 = (xs.map (roundTo d)).getD (j - 1) 0) := by
      constructor
      · intro h j hj1 hj2
        have hk : j - (p + 1 - w) - 1 < w - 1 := by omega
        have := h _ hk
        have hidx : p + 1 - (w - 1) + (j - (p + 1 - w) - 1) = (j - 1) + 1 := by
          omega
        rw [hidx, diffList_finSeries_getD _ _ (by rw [hlenr]; omega)] at this
        have hj : j - 1 + 1 = j := by omega
        rw [hj] at this
        rw [PVal.fin.injEq] at this
        linarith [sub_eq_zero.mp this]
      · intro h k hk
        have hidx : p + 1 - (w - 1) + k = (p + 1 - w + k) + 1 := by omega
        rw [hidx, diffList_finSeries_getD _ _ (by rw [hlenr]; omega)]
        have := h (p + 1 - w + k + 1) (by omega) (by omega)
        have hj : p + 1 - w + k + 1 - 1 = p + 1 - w + k := by omega
        rw [hj] at this
        rw [this]
        simp
    rw [step2, chain_eq_const (fun j => (xs.map (roundTo d)).getD j 0) (p + 1 - w) p]
    constructor
    · intro h
      refine ⟨hA, ?_⟩
      intro j hj1 hj2
      have := h j hj1 hj2
      rwa [map_roundTo_getD _ _ _ (by omega), map_roundTo_getD _ _ _ (by omega)]
        at this
    · rintro ⟨-, h⟩
      intro j hj1 hj2
      rw [map_roundTo_getD _ _ _ (by omega), map_roundTo_getD _ _ _ (by omega)]
      exact h j hj1 hj2
  · rw [if_neg]
    · constructor
      · intro h
        cases h
      · rintro ⟨h1, -⟩
        omega
    · rintro ⟨hc1, hc2⟩
      have hw2 : w = p + 2 := by omega
      rw [rollingWindow_all _ _ _ _ hc1 hp'] at hc2
      have h0 := hc2 0 (by omega)
      have hz : p + 1 - (w - 1) + 0 = 0 := by omega
      rw [hz] at h0
      have hne : xs ≠ [] := by
        intro hnil
        rw [hnil] at hp
        simp at hp
      obtain ⟨a, t, hxs⟩ := List.exists_cons_of_ne_nil hne
      rw [hxs, List.map_cons, diffList_finSeries_getD_zero] at h0
      simp [PVal.isFinite] at h0

lemma stale_values_round_getD (xs : List ℚ) (d : ℤ) (w i : ℕ)
    (hi : i < xs.length) :
    (stale_values_round (finSeries xs) d w).getD i false =
      (List.range w).any (fun k =>
        (rollingApplyBool (diffList (finSeries (xs.map (roundTo d)))) (w - 1)
          (countZerosIs (w - 1))).getD (i + k) false) := by
  have hlen : i < (stale_values_round (finSeries xs) d w).length := by
    simp only [stale_values_round, List.length_map, List.length_range,
      length_finSeries]
    exact hi
  rw [List.getD_eq_getElem _ _ hlen]
  simp only [stale_values_round, map_round_finSeries, List.getElem_map,
    List.getElem_range]

/-- C2: for every series `x`, every `decimals` and every `window ≥ 2`,
`stale_values_round` flags position `i` `True` iff `i` belongs to some run of
at least `window` consecutive values that are identical after rounding (every
member of such a run is flagged, not only its tail); every position of a
shorter run, and every position outside any run, is `False`. -/
theorem stale_values_round_run_spec (xs : List ℚ) (d : ℤ) (w : ℕ) (hw : 2 ≤ w)
    (i : ℕ) (hi : i < xs.length) :
    ((stale_values_round (finSeries xs) d w).getD i false = true ↔
      ∃ s e, s ≤ i ∧ i ≤ e ∧ e < xs.length ∧ w ≤ e + 1 - s ∧
        ∀ j, s ≤ j → j ≤ e →
          roundTo d (xs.getD j 0) = roundTo d (xs.getD s 0)) := by
  rw [stale_values_round_getD xs d w i hi, List.any_eq_true]
  have hlend : (rollingApplyBool (diffList (finSeries (xs.map (roundTo d))))
      (w - 1) (countZerosIs (w - 1))).length = xs.length := by
    rw [length_rollingApplyBool, length_diffList, length_finSeries,
      List.length_map]
  constructor
  · rintro ⟨k, hk, hep⟩
    rw [List.mem_range] at hk
    have hin : i + k < xs.length := by
      by_contra hout
      rw [getD_eq_false_of_ge _ _ (by omega)] at hep
      cases hep
    rw [endpoints_getD xs d w hw (i + k) hin] at hep
    obtain ⟨hwp, hconst⟩ := hep
    refine ⟨i + k + 1 - w, i + k, by omega, by omega, hin, by omega, ?_⟩
    exact hconst
  · rintro ⟨s, e, hsi, hie, hen, hlen, hconst⟩
    have hse : s + w - 1 ≤ e := by omega
    set p := max i (s + w - 1) with hp
    have hpe : p ≤ e := by omega
    have hpn : p < xs.length := by omega
    have hip : i ≤ p := by omega
    have hki : p - i < w := by omega
    refine ⟨p - i, List.mem_range.mpr hki, ?_⟩
    have hidx : i + (p - i) = p := by omega
    rw [hidx, endpoints_getD xs d w hw p hpn]
    refine ⟨by omega, ?_⟩
    intro j hj1 hj2
    have hjs : s ≤ j := by omega
    have hje : j ≤ e := by omega
    have h1 := hconst j hjs hje
    have h2 := hconst (p + 1 - w) (by omega) (by omega)
    rw [h1, h2]

/-- Witness for C2 at `x = [3, 1, 1, 2]`, `decimals = 0`, `window = 2`,
position `i = 1` (inside the run of two 1s, flagged `True`). -/
theorem stale_values_round_run_spec_witness :
    ((stale_values_round (finSeries [3, 1, 1, 2]) 0 2).getD 1 false = true ↔
      ∃ s e, s ≤ 1 ∧ 1 ≤ e ∧ e < ([3, 1, 1, 2] : List ℚ).length ∧
        2 ≤ e + 1 - s ∧
        ∀ j, s ≤ j → j ≤ e →
          roundTo 0 (([3, 1, 1, 2] : List ℚ).getD j 0) =
            roundTo 0 (([3, 1, 1, 2] : List ℚ).getD s 0)) :=
  stale_values_round_run_spec [3, 1, 1, 2] 0 2 (by decide) 1 (by decide)

end Gaps
